import Mathlib

/-!
Shallow embedding of the English-to-Amharic translator's core pipeline
(src/app/utils.py and src/app/pdf_handler.py).  Text is modelled as
lists of characters, Python floats as rationals, Python dictionaries as
association lists, and the fallible external translator as a function
into Except.
-/

/-- Text is modelled as a list of characters. -/
abbrev Str := List Char

/-- The ASCII whitespace characters that Python str.split() with no
separator splits on. -/
def pyIsSpace (c : Char) : Bool :=
  c == ' ' || c == '\t' || c == '\n' || c == '\r' || c == '\x0b' || c == '\x0c'

/-- Helper for pySplit: walks the string, accumulating the current word
in reverse. -/
def splitAux : Str → Str → List Str
  | [], acc => if acc = [] then [] else [acc.reverse]
  | c :: rest, acc =>
    if pyIsSpace c then
      if acc = [] then splitAux rest [] else acc.reverse :: splitAux rest []
    else splitAux rest (c :: acc)

/-- Python text.split() with no separator: split on runs of whitespace,
dropping empty pieces. -/
def pySplit (s : Str) : List Str := splitAux s []

/-- Python " ".join(ws): concatenate the words with a single space
between consecutive words. -/
def joinSpace : List Str → Str
  | [] => []
  | [w] => w
  | w :: ws => w ++ ' ' :: joinSpace ws

/-- utils.clean_text: collapse all whitespace runs to single spaces and
trim leading/trailing whitespace (implemented in the source exactly as
joining the whitespace split with single spaces). -/
def clean_text (s : Str) : Str := joinSpace (pySplit s)

/-- State of the chunking loop in utils.split_text: the sealed chunks so
far and the current chunk, each chunk being a list of words. -/
structure SplitState where
  chunks : List (List Str)
  cur : List Str
deriving DecidableEq

/-- One iteration of the loop body of utils.split_text: append the word
to the current chunk; if the space-joined current chunk now exceeds
max_length, pop the word back off when the chunk holds more than one
word, seal the chunk, and restart the current chunk with that word. -/
def splitStep (maxLength : Nat) (st : SplitState) (word : Str) : SplitState :=
  if maxLength < (joinSpace (st.cur ++ [word])).length then
    ⟨st.chunks ++
        [if 1 < (st.cur ++ [word]).length then (st.cur ++ [word]).dropLast
         else st.cur ++ [word]],
      [word]⟩
  else
    ⟨st.chunks, st.cur ++ [word]⟩

/-- utils.split_text at the level of word lists: run the loop over the
whitespace-split words and append the final partial chunk when
non-empty. -/
def splitChunks (text : Str) (maxLength : Nat) : List (List Str) :=
  if ((pySplit text).foldl (splitStep maxLength) ⟨[], []⟩).cur = [] then
    ((pySplit text).foldl (splitStep maxLength) ⟨[], []⟩).chunks
  else
    ((pySplit text).foldl (splitStep maxLength) ⟨[], []⟩).chunks
      ++ [((pySplit text).foldl (splitStep maxLength) ⟨[], []⟩).cur]

/-- utils.split_text: the sealed chunks as space-joined strings. -/
def split_text (text : Str) (maxLength : Nat) : List Str :=
  (splitChunks text maxLength).map joinSpace

example : split_text (String.toList ("hello world foo")) 11
    = [String.toList ("hello world"), String.toList ("foo")] := by decide

example : split_text (String.toList ("aaa")) 2
    = [String.toList ("aaa"), String.toList ("aaa")] := by decide

/-- Every word returned by splitAux is non-empty and contains no
whitespace character, provided the accumulator contains none. -/
theorem splitAux_words_ok : ∀ (s : Str) (acc : Str),
    (∀ c ∈ acc, pyIsSpace c = false) →
    ∀ w ∈ splitAux s acc, w ≠ [] ∧ ∀ c ∈ w, pyIsSpace c = false := by
  intro s
  induction s with
  | nil =>
    intro acc hacc w hw
    by_cases h : acc = []
    · simp [splitAux, h] at hw
    · simp [splitAux, h] at hw
      subst hw
      refine ⟨by simpa using h, ?_⟩
      intro c hc
      exact hacc c (List.mem_reverse.mp hc)
  | cons ch rest ih =>
    intro acc hacc w hw
    by_cases hs : pyIsSpace ch = true
    · by_cases h : acc = []
      · simp [splitAux, hs, h] at hw
        exact ih [] (by simp) w hw
      · simp [splitAux, hs, h] at hw
        rcases hw with hw | hw
        · subst hw
          refine ⟨by simpa using h, ?_⟩
          intro c hc
          exact hacc c (List.mem_reverse.mp hc)
        · exact ih [] (by simp) w hw
    · simp only [splitAux, hs] at hw
      simp only [Bool.false_eq_true, if_false] at hw
      refine ih (ch :: acc) ?_ w hw
      intro c hc
      rcases List.mem_cons.mp hc with rfl | hc
      · simpa using hs
      · exact hacc c hc

/-- Every word of pySplit is non-empty and free of whitespace. -/
theorem pySplit_words_ok (s : Str) :
    ∀ w ∈ pySplit s, w ≠ [] ∧ ∀ c ∈ w, pyIsSpace c = false :=
  splitAux_words_ok s [] (by simp)

/-- splitAux consumes a whitespace-free prefix into its accumulator. -/
theorem splitAux_append : ∀ (w : Str) (s acc : Str),
    (∀ c ∈ w, pyIsSpace c = false) →
    splitAux (w ++ s) acc = splitAux s (w.reverse ++ acc) := by
  intro w
  induction w with
  | nil => intro s acc _; simp
  | cons ch rest ih =>
    intro s acc hw
    have hch : pyIsSpace ch = false := hw ch (List.mem_cons_self ch rest)
    simp only [List.cons_append, splitAux, hch, Bool.false_eq_true, if_false,
      List.append_eq]
    rw [ih s (ch :: acc) (fun c hc => hw c (List.mem_cons_of_mem ch hc))]
    simp

/-- joinSpace on a cons with a non-empty tail inserts one space. -/
theorem joinSpace_cons (w : Str) (ws : List Str) (h : ws ≠ []) :
    joinSpace (w :: ws) = w ++ ' ' :: joinSpace ws := by
  cases ws with
  | nil => exact absurd rfl h
  | cons v vs => rfl

/-- Splitting the space-join of non-empty whitespace-free words recovers
exactly those words. -/
theorem pySplit_joinSpace : ∀ ws : List Str,
    (∀ w ∈ ws, w ≠ [] ∧ ∀ c ∈ w, pyIsSpace c = false) →
    pySplit (joinSpace ws) = ws := by
  intro ws
  induction ws with
  | nil => intro _; rfl
  | cons w ws ih =>
    intro h
    have hw := h w (List.mem_cons_self w ws)
    cases ws with
    | nil =>
      show splitAux (joinSpace [w]) [] = [w]
      have : joinSpace [w] = w ++ [] := by simp [joinSpace]
      rw [this, splitAux_append w [] [] hw.2]
      simp [splitAux, hw.1]
    | cons v vs =>
      rw [joinSpace_cons w (v :: vs) (by simp)]
      have step : pySplit (w ++ ' ' :: joinSpace (v :: vs))
          = w :: pySplit (joinSpace (v :: vs)) := by
        unfold pySplit
        rw [splitAux_append w (' ' :: joinSpace (v :: vs)) [] hw.2]
        have hsp : pyIsSpace ' ' = true := by decide
        have hrev : w.reverse ++ ([] : Str) ≠ [] := by simpa using hw.1
        simp [splitAux, hsp, hrev, hw.1]
      rw [step, ih (fun u hu => h u (List.mem_cons_of_mem w hu))]

/-- Re-splitting cleaned text gives the same words as splitting the
original text. -/
theorem pySplit_clean_text (s : Str) : pySplit (clean_text s) = pySplit s := by
  unfold clean_text
  exact pySplit_joinSpace (pySplit s) (pySplit_words_ok s)

/-- C8: for every input string t, clean_text (clean_text t) = clean_text t:
the whitespace normalization performed by utils.clean_text is
idempotent. -/
theorem C8_clean_text_idempotent (t : Str) :
    clean_text (clean_text t) = clean_text t := by
  show joinSpace (pySplit (clean_text t)) = clean_text t
  rw [pySplit_clean_text]
  rfl

/-- Each word of a list is at most as long as the space-join of the
list. -/
theorem length_le_joinSpace : ∀ (ws : List Str) (w : Str), w ∈ ws →
    w.length ≤ (joinSpace ws).length := by
  intro ws
  induction ws with
  | nil => intro w hw; cases hw
  | cons v vs ih =>
    intro w hw
    cases vs with
    | nil =>
      rcases List.mem_singleton.mp hw with rfl
      exact le_refl _
    | cons u us =>
      rw [joinSpace_cons v (u :: us) (by simp)]
      rcases List.mem_cons.mp hw with rfl | hw
      · simp only [List.length_append, List.length_cons]
        omega
      · have := ih w hw
        simp only [List.length_append, List.length_cons]
        omega

/-- When the word that triggered the overflow fits within maxLength by
itself, the current chunk was not empty before it was appended. -/
theorem splitStep_cur_ne_nil (maxLength : Nat) (st : SplitState) (w : Str)
    (hw : w.length ≤ maxLength)
    (hov : maxLength < (joinSpace (st.cur ++ [w])).length) : st.cur ≠ [] := by
  intro hnil
  rw [hnil, List.nil_append] at hov
  have hj : joinSpace [w] = w := rfl
  rw [hj] at hov
  omega

/-- When the word fits within maxLength by itself, one iteration of the
split_text loop preserves the flattened word sequence of the state. -/
theorem splitStep_reconstruct (maxLength : Nat) (st : SplitState) (w : Str)
    (hw : w.length ≤ maxLength) :
    (splitStep maxLength st w).chunks.flatten ++ (splitStep maxLength st w).cur
      = st.chunks.flatten ++ st.cur ++ [w] := by
  unfold splitStep
  by_cases hov : maxLength < (joinSpace (st.cur ++ [w])).length
  · have hcur : st.cur ≠ [] := splitStep_cur_ne_nil maxLength st w hw hov
    have hlen : 1 < (st.cur ++ [w]).length := by
      cases hc : st.cur with
      | nil => exact absurd hc hcur
      | cons a l => simp only [List.length_append, List.length_cons]; omega
    rw [if_pos hov, if_pos hlen]
    simp only [List.flatten_append, List.flatten_cons, List.flatten_nil,
      List.dropLast_concat, List.append_nil, List.append_assoc]
  · rw [if_neg hov]
    simp [List.append_assoc]

/-- When the word fits within maxLength by itself, one iteration of the
split_text loop never seals an empty chunk. -/
theorem splitStep_chunks_ne (maxLength : Nat) (st : SplitState) (w : Str)
    (hw : w.length ≤ maxLength) (h : ∀ ch ∈ st.chunks, ch ≠ []) :
    ∀ ch ∈ (splitStep maxLength st w).chunks, ch ≠ [] := by
  unfold splitStep
  by_cases hov : maxLength < (joinSpace (st.cur ++ [w])).length
  · have hcur : st.cur ≠ [] := splitStep_cur_ne_nil maxLength st w hw hov
    have hlen : 1 < (st.cur ++ [w]).length := by
      cases hc : st.cur with
      | nil => exact absurd hc hcur
      | cons a l => simp only [List.length_append, List.length_cons]; omega
    rw [if_pos hov, if_pos hlen]
    intro ch hch
    rcases List.mem_append.mp hch with hch | hch
    · exact h ch hch
    · rcases List.mem_singleton.mp hch with rfl
      rw [List.dropLast_concat]
      exact hcur
  · rw [if_neg hov]
    exact h

/-- Running the split_text loop over words that all fit within maxLength
preserves the flattened word sequence and seals only non-empty
chunks. -/
theorem foldl_splitStep_spec (maxLength : Nat) :
    ∀ (words : List Str) (st : SplitState),
    (∀ w ∈ words, w.length ≤ maxLength) →
    (∀ ch ∈ st.chunks, ch ≠ []) →
    ((words.foldl (splitStep maxLength) st).chunks.flatten
        ++ (words.foldl (splitStep maxLength) st).cur
      = st.chunks.flatten ++ st.cur ++ words)
    ∧ ∀ ch ∈ (words.foldl (splitStep maxLength) st).chunks, ch ≠ [] := by
  intro words
  induction words with
  | nil => intro st _ hch; exact ⟨by simp, hch⟩
  | cons w ws ih =>
    intro st hw hch
    have hwlen : w.length ≤ maxLength := hw w (List.mem_cons_self w ws)
    have h1 := splitStep_reconstruct maxLength st w hwlen
    have h2 := splitStep_chunks_ne maxLength st w hwlen hch
    have h3 := ih (splitStep maxLength st w)
      (fun v hv => hw v (List.mem_cons_of_mem w hv)) h2
    refine ⟨?_, h3.2⟩
    rw [List.foldl_cons, h3.1, h1]
    simp [List.append_assoc]

/-- joinSpace distributes over append of two non-empty lists with one
space at the seam. -/
theorem joinSpace_append : ∀ (l₁ l₂ : List Str), l₁ ≠ [] → l₂ ≠ [] →
    joinSpace (l₁ ++ l₂) = joinSpace l₁ ++ ' ' :: joinSpace l₂ := by
  intro l₁
  induction l₁ with
  | nil => intro l₂ h _; exact absurd rfl h
  | cons w ws ih =>
    intro l₂ _ h₂
    cases ws with
    | nil =>
      rw [List.cons_append, List.nil_append, joinSpace_cons w l₂ h₂]
      rfl
    | cons v vs =>
      rw [List.cons_append, joinSpace_cons w (v :: vs ++ l₂) (by simp),
        joinSpace_cons w (v :: vs) (by simp), ih l₂ (by simp) h₂]
      simp

/-- Joining per-chunk joins equals joining the flattened chunk list when
every chunk is non-empty. -/
theorem joinSpace_map_joinSpace : ∀ chs : List (List Str),
    (∀ ch ∈ chs, ch ≠ []) →
    joinSpace (chs.map joinSpace) = joinSpace chs.flatten := by
  intro chs
  induction chs with
  | nil => intro _; rfl
  | cons ch chs ih =>
    intro h
    have hch : ch ≠ [] := h ch (List.mem_cons_self ch chs)
    cases chs with
    | nil => simp [joinSpace]
    | cons ch2 chs2 =>
      have hflat : (ch2 :: chs2).flatten ≠ [] := by
        have h2 : ch2 ≠ [] := h ch2 (by simp)
        cases ch2 with
        | nil => exact absurd rfl h2
        | cons a l => simp
      rw [List.map_cons, joinSpace_cons _ _ (by simp), List.flatten_cons,
        joinSpace_append ch (ch2 :: chs2).flatten hch hflat,
        ih (fun c hc => h c (List.mem_cons_of_mem ch hc))]

/-- C1: for every input string t and every maxLength > 0, the chunks
produced by split_text t maxLength, joined back with single spaces,
reconstruct a string equal to clean_text t.  The single-long-word
exceed-limit case that the claim sets aside is excluded by the
hypothesis that every whitespace-separated word of t fits within
maxLength. -/
theorem C1_split_join_reconstructs (t : Str) (maxLength : Nat)
    (hpos : 0 < maxLength)
    (hwords : ∀ w ∈ pySplit t, w.length ≤ maxLength) :
    joinSpace (split_text t maxLength) = clean_text t := by
  have hspec := foldl_splitStep_spec maxLength (pySplit t) ⟨[], []⟩ hwords
    (by intro ch hch; cases hch)
  unfold split_text splitChunks clean_text
  by_cases hcur : ((pySplit t).foldl (splitStep maxLength) ⟨[], []⟩).cur = []
  · rw [if_pos hcur, joinSpace_map_joinSpace _ hspec.2]
    have h1 := hspec.1
    rw [hcur, List.append_nil] at h1
    simp only [List.flatten_nil, List.nil_append] at h1
    rw [h1]
  · rw [if_neg hcur]
    have hne : ∀ ch ∈ ((pySplit t).foldl (splitStep maxLength) ⟨[], []⟩).chunks
        ++ [((pySplit t).foldl (splitStep maxLength) ⟨[], []⟩).cur], ch ≠ [] := by
      intro ch hch
      rcases List.mem_append.mp hch with hch | hch
      · exact hspec.2 ch hch
      · rcases List.mem_singleton.mp hch with rfl
        exact hcur
    rw [joinSpace_map_joinSpace _ hne]
    have h1 := hspec.1
    simp only [List.flatten_nil, List.nil_append] at h1
    rw [List.flatten_append, List.flatten_cons, List.flatten_nil,
      List.append_nil, h1]

/-- C1 witness: the reconstruction theorem applied at a concrete input
whose words all fit within the limit. -/
theorem C1_split_join_reconstructs_witness :
    ((0 : Nat) < 11 ∧ ∀ w ∈ pySplit (String.toList ("hello world foo")),
        w.length ≤ 11)
    ∧ joinSpace (split_text (String.toList ("hello world foo")) 11)
        = clean_text (String.toList ("hello world foo")) :=
  ⟨⟨by decide, by decide⟩,
    C1_split_join_reconstructs (String.toList ("hello world foo")) 11
      (by decide) (by decide)⟩

/-- A chunk in which every word longer than maxLength stands alone. -/
def LongAlone (maxLength : Nat) (ch : List Str) : Prop :=
  ∀ w ∈ ch, maxLength < w.length → ch = [w]

/-- One iteration of the split_text loop keeps every over-long word
alone in its chunk. -/
theorem splitStep_longAlone (maxLength : Nat) (st : SplitState) (w : Str)
    (h1 : ∀ ch ∈ st.chunks, LongAlone maxLength ch)
    (h2 : LongAlone maxLength st.cur) :
    (∀ ch ∈ (splitStep maxLength st w).chunks, LongAlone maxLength ch)
    ∧ LongAlone maxLength (splitStep maxLength st w).cur := by
  unfold splitStep
  by_cases hov : maxLength < (joinSpace (st.cur ++ [w])).length
  · rw [if_pos hov]
    by_cases hlen : 1 < (st.cur ++ [w]).length
    · rw [if_pos hlen]
      refine ⟨?_, ?_⟩
      · intro ch hch
        rcases List.mem_append.mp hch with hch | hch
        · exact h1 ch hch
        · rcases List.mem_singleton.mp hch with rfl
          rw [List.dropLast_concat]
          exact h2
      · intro v hv _
        rcases List.mem_singleton.mp hv with rfl
        rfl
    · have hnil : st.cur = [] := by
        cases hc : st.cur with
        | nil => rfl
        | cons a l =>
          exact absurd (by rw [hc]; simp only [List.length_append,
            List.length_cons]; omega) hlen
      rw [if_neg hlen]
      refine ⟨?_, ?_⟩
      · intro ch hch
        rcases List.mem_append.mp hch with hch | hch
        · exact h1 ch hch
        · rcases List.mem_singleton.mp hch with rfl
          rw [hnil, List.nil_append]
          intro v hv _
          rcases List.mem_singleton.mp hv with rfl
          rfl
      · intro v hv _
        rcases List.mem_singleton.mp hv with rfl
        rfl
  · rw [if_neg hov]
    push_neg at hov
    refine ⟨h1, ?_⟩
    intro v hv hlong
    have := length_le_joinSpace (st.cur ++ [w]) v hv
    omega

/-- The split_text loop keeps every over-long word alone in its chunk,
in all sealed chunks and in the current chunk. -/
theorem foldl_splitStep_longAlone (maxLength : Nat) :
    ∀ (words : List Str) (st : SplitState),
    (∀ ch ∈ st.chunks, LongAlone maxLength ch) → LongAlone maxLength st.cur →
    (∀ ch ∈ (words.foldl (splitStep maxLength) st).chunks,
      LongAlone maxLength ch)
    ∧ LongAlone maxLength (words.foldl (splitStep maxLength) st).cur := by
  intro words
  induction words with
  | nil => intro st h1 h2; exact ⟨h1, h2⟩
  | cons w ws ih =>
    intro st h1 h2
    have h := splitStep_longAlone maxLength st w h1 h2
    exact ih (splitStep maxLength st w) h.1 h.2

/-- C2 amended: every whitespace-separated word of t longer than
maxLength is never split further by split_text: every chunk that
contains it consists of exactly that word standing alone (hence the
chunk exceeds the limit).  The word is not guaranteed to appear exactly
once per occurrence: when the word lands in an empty accumulator, the
loop seals it as a chunk and also re-seeds the accumulator with the same
word, so it can appear twice (see the counterexample theorem). -/
theorem C2_long_word_alone (t : Str) (maxLength : Nat) (w : Str)
    (hw : maxLength < w.length) :
    ∀ ch ∈ splitChunks t maxLength, w ∈ ch → ch = [w] := by
  have h := foldl_splitStep_longAlone maxLength (pySplit t) ⟨[], []⟩
    (by intro ch hch; cases hch) (by intro v hv _; cases hv)
  unfold splitChunks
  by_cases hcur : ((pySplit t).foldl (splitStep maxLength) ⟨[], []⟩).cur = []
  · rw [if_pos hcur]
    intro ch hch hmem
    exact h.1 ch hch w hmem hw
  · rw [if_neg hcur]
    intro ch hch hmem
    rcases List.mem_append.mp hch with hch | hch
    · exact h.1 ch hch w hmem hw
    · rcases List.mem_singleton.mp hch with rfl
      exact h.2 w hmem hw

/-- C2 amended witness: the word aaa is longer than the limit 2 and every
chunk of split_text containing it is that word alone. -/
theorem C2_long_word_alone_witness :
    (2 < (String.toList ("aaa")).length)
    ∧ ∀ ch ∈ splitChunks (String.toList ("aaa b")) 2,
        String.toList ("aaa") ∈ ch → ch = [String.toList ("aaa")] :=
  ⟨by decide,
    C2_long_word_alone (String.toList ("aaa b")) 2 (String.toList ("aaa"))
      (by decide)⟩

/-- C2 counterexample: with t = aaa and maxLength = 2, the word aaa is
longer than maxLength and occurs exactly once among the
whitespace-separated words of t, yet it appears twice in the output of
split_text: the loop seals it as a chunk and then re-seeds the current
chunk with the same word, so it is not emitted exactly once per
occurrence as the claim states. -/
theorem C2_counterexample :
    2 < (String.toList ("aaa")).length
    ∧ (pySplit (String.toList ("aaa"))).count (String.toList ("aaa")) = 1
    ∧ (split_text (String.toList ("aaa")) 2).count (String.toList ("aaa")) = 2 := by
  decide

/-- A positioned text run as extracted from a page (the per-run
dictionary built by the visitor in extract_text_with_positions). -/
structure TextRun where
  text : Str
  x : ℚ
  y : ℚ
  fontSize : ℚ
  font : Str
  rotation : ℤ
  width : ℚ
  height : ℚ
deriving DecidableEq

/-- One page of extraction output (the per-page dictionary of
extract_text_with_positions). -/
structure Page where
  width : ℚ
  height : ℚ
  rotation : ℤ
  content : List TextRun
  page_number : Nat
deriving DecidableEq

/-- One text-showing operation passed to the extraction visitor: the raw
text, the translation components tm[4] and tm[5] of the text matrix, the
BaseFont entry of the font dictionary when one is present, and the
reported font size (0 models a missing or zero size, both falsy in
Python). -/
structure RawOp where
  text : Str
  tm4 : ℚ
  tm5 : ℚ
  baseFont : Option Str
  fontSize : ℚ
deriving DecidableEq

/-- One raw page of the parsed PDF: mediabox dimensions, rotation, and
the text-showing operations the visitor receives in content order. -/
structure RawPage where
  width : ℚ
  height : ℚ
  rotation : ℤ
  ops : List RawOp
deriving DecidableEq

/-- Python str.strip(): drop leading and trailing whitespace. -/
def pyStrip (s : Str) : Str :=
  ((s.dropWhile pyIsSpace).reverse.dropWhile pyIsSpace).reverse

/-- The fallback font name of the extractor and renderer. -/
def helvetica : Str := String.toList ("Helvetica")

/-- The visitor body of extract_text_with_positions for one text op:
skip whitespace-only text, otherwise record the stripped text at
(tm[4], tm[5]) with the font-name and font-size defaults of the
source. -/
def visitorRun (pg : RawPage) (op : RawOp) : Option TextRun :=
  if pyStrip op.text = [] then none
  else some {
    text := pyStrip op.text
    x := op.tm4
    y := op.tm5
    fontSize := if op.fontSize = 0 then 12 else op.fontSize
    font := match op.baseFont with | some f => f | none => helvetica
    rotation := pg.rotation
    width := pg.width
    height := pg.height }

/-- Stable insertion of x after every element that strictly precedes it
under lt. -/
def insertSorted (lt : α → α → Bool) (x : α) : List α → List α
  | [] => [x]
  | y :: ys => if lt y x then y :: insertSorted lt x ys else x :: y :: ys

/-- Stable sort modelling Python sorted with a key comparison: the
result of any stable sort is determined by the key order, so insertion
sort gives the same list as the source's sort. -/
def stableSort (lt : α → α → Bool) (l : List α) : List α :=
  l.foldr (insertSorted lt) []

/-- The key comparison of the extractor sort: strictly smaller under the
lexicographic key (-y, x), i.e. y descending then x ascending. -/
def extractLT (a b : TextRun) : Bool :=
  decide (b.y < a.y) || (decide (a.y = b.y) && decide (a.x < b.x))

/-- extract_text_with_positions on one parsed page with its 0-based
index: collect the visitor's runs, sort them by descending y then
ascending x, and omit the page entirely when no runs survive. -/
def buildPage (idx : Nat) (pg : RawPage) : Option Page :=
  if pg.ops.filterMap (visitorRun pg) = [] then none
  else some {
    width := pg.width
    height := pg.height
    rotation := pg.rotation
    content := stableSort extractLT (pg.ops.filterMap (visitorRun pg))
    page_number := idx + 1 }

/-- pdf_handler.extract_text_with_positions: a parse failure is caught
and yields an empty page list; otherwise pages are processed in document
order, pages with no extractable runs being omitted. -/
def extract_text_with_positions (pdf : Except Str (List RawPage)) :
    List Page :=
  match pdf with
  | .error _ => []
  | .ok pgs => pgs.enum.filterMap (fun p => buildPage p.1 p.2)

/-- reportlab's mm unit in points: 1 mm = 72 / 25.4 points. -/
def mmUnit : ℚ := 72 / ((254 : ℚ) / 10)

/-- A drawString call actually issued on the canvas. -/
structure DrawnOp where
  x : ℚ
  y : ℚ
  fontSize : ℚ
  text : Str
deriving DecidableEq

/-- Python translations.get(text, text): the stored translation, or the
key itself when absent. -/
def getD (m : List (Str × Str)) (k : Str) : Str :=
  match m.find? (fun p => p.1 == k) with
  | some p => p.2
  | none => k

/-- The adjusted font size of create_pdf_with_layout: the original font
size scaled by the fixed 1.2 factor. -/
def adjustedFontSize (run : TextRun) : ℚ := run.fontSize * ((12 : ℚ) / 10)

/-- The vertical placement of create_pdf_with_layout: the run's stored
y, overridden to last_y - adjustedFontSize - 2mm when a previous run was
drawn less than 2mm away vertically. -/
def placedY (last_y : Option ℚ) (run : TextRun) : ℚ :=
  match last_y with
  | some ly =>
    if |run.y - ly| < 2 * mmUnit then ly - adjustedFontSize run - 2 * mmUnit
    else run.y
  | none => run.y

/-- The drawString operation create_pdf_with_layout issues for a run
given the last drawn y. -/
def drawnOpOf (translations : List (Str × Str)) (last_y : Option ℚ)
    (run : TextRun) : DrawnOp :=
  ⟨run.x, placedY last_y run, adjustedFontSize run, getD translations run.text⟩

/-- One run of the inner loop of create_pdf_with_layout: skip empty
text, resolve the translation with the original text as fallback and
skip the run when the resolved string is empty, then draw at the
adjusted position and size unless drawing raises (drawFails), in which
case the run is skipped and the state is unchanged; last_y is updated
only after a successful draw. -/
def renderStep (translations : List (Str × Str)) (drawFails : DrawnOp → Bool)
    (st : Option ℚ × List DrawnOp) (run : TextRun) :
    Option ℚ × List DrawnOp :=
  if run.text = [] then st
  else if getD translations run.text = [] then st
  else if drawFails (drawnOpOf translations st.1 run) then st
  else (some (placedY st.1 run), st.2 ++ [drawnOpOf translations st.1 run])

/-- The key comparison of the per-page renderer sort: descending y. -/
def renderLT (a b : TextRun) : Bool := decide (b.y < a.y)

/-- The per-page inner loop of create_pdf_with_layout: re-sort the
page's runs by descending y and process them starting from an unset
last_y and an empty canvas. -/
def renderPage (translations : List (Str × Str)) (drawFails : DrawnOp → Bool)
    (pg : Page) : Option ℚ × List DrawnOp :=
  (stableSort renderLT pg.content).foldl (renderStep translations drawFails)
    (none, [])

/-- pdf_handler.create_pdf_with_layout: with no pages the document-level
exception handler returns empty bytes (modelled as none, from
pages_content[0] raising); otherwise every page contributes the list of
drawString operations issued on its canvas. -/
def create_pdf_with_layout (pages_content : List Page)
    (translations : List (Str × Str)) (drawFails : DrawnOp → Bool) :
    Option (List (List DrawnOp)) :=
  match pages_content with
  | [] => none
  | _ =>
    some (pages_content.map
      (fun pg => (renderPage translations drawFails pg).2))

/-- Progress message of the extraction stage. -/
def msgExtracting : Str := String.toList ("Extracting text from PDF...")

/-- Progress message at the start of the mapping stage. -/
def msgTranslatingStart : Str := String.toList ("Translating text...")

/-- Progress message per processed run, naming the page number. -/
def msgTranslatingPage (n : Nat) : Str :=
  String.toList ("Translating page ") ++ Nat.toDigits 10 n
    ++ String.toList ("...")

/-- Progress message of the rendering stage. -/
def msgCreating : Str := String.toList ("Creating translated PDF...")

/-- Progress message of the persist stage. -/
def msgSaving : Str := String.toList ("Saving translated PDF...")

/-- Progress message on success. -/
def msgComplete : Str := String.toList ("Translation complete!")

/-- User-facing message for the no-extractable-text failure. -/
def msgErrNoText : Str :=
  String.toList ("Could not extract text from PDF. Please ensure the PDF contains text and not just images.")

/-- User-facing message for a translation-capability failure. -/
def msgErrTranslationFailed : Str :=
  String.toList ("Translation failed. Please try again or check your internet connection.")

/-- User-facing message for a rendering failure. -/
def msgErrCreateFailed : Str :=
  String.toList ("Could not create translated PDF. The file might be corrupted or in an unsupported format.")

/-- User-facing message for any other exception. -/
def msgErrOther (e : Str) : Str :=
  String.toList ("PDF translation error: ") ++ e

/-- State of the translation-building loop in translate_pdf. -/
structure MapState where
  translations : List (Str × Str)
  calls : Nat
  processed : Nat
  emissions : List (ℚ × Str)
deriving DecidableEq

/-- Initial state of the translation-building loop. -/
def initMapState : MapState := ⟨[], 0, 0, []⟩

/-- Whether text is already a key of the translations dictionary. -/
def hasKey (m : List (Str × Str)) (k : Str) : Bool :=
  m.any (fun p => p.1 == k)

/-- One run of the translation loop of translate_pdf: call the
translator when the text is non-empty and not yet a key (aborting the
whole document on a translator exception, before counting the run),
then count the run and report progress 0.2 + 0.6 * processed / total
with the page's number in the message. -/
def mapRun (translator : Str → Except Str Str) (total : ℚ) (pno : Nat)
    (st : MapState) (run : TextRun) : Except MapState MapState :=
  if run.text ≠ [] ∧ hasKey st.translations run.text = false then
    match translator run.text with
    | .error _ => .error st
    | .ok tr =>
      .ok ⟨st.translations ++ [(run.text, tr)], st.calls + 1,
        st.processed + 1,
        st.emissions ++ [((2 : ℚ) / 10
          + (6 : ℚ) / 10 * ((st.processed : ℚ) + 1) / total,
          msgTranslatingPage pno)]⟩
  else
    .ok ⟨st.translations, st.calls, st.processed + 1,
      st.emissions ++ [((2 : ℚ) / 10
        + (6 : ℚ) / 10 * ((st.processed : ℚ) + 1) / total,
        msgTranslatingPage pno)]⟩

/-- The translation loop over the runs of one page. -/
def mapRuns (translator : Str → Except Str Str) (total : ℚ) (pno : Nat) :
    List TextRun → MapState → Except MapState MapState
  | [], st => .ok st
  | r :: rs, st =>
    match mapRun translator total pno st r with
    | .error st2 => .error st2
    | .ok st2 => mapRuns translator total pno rs st2

/-- The translation loop over all pages. -/
def mapPages (translator : Str → Except Str Str) (total : ℚ) :
    List Page → MapState → Except MapState MapState
  | [], st => .ok st
  | pg :: pgs, st =>
    match mapRuns translator total pg.page_number pg.content st with
    | .error st2 => .error st2
    | .ok st2 => mapPages translator total pgs st2

/-- total_items of translate_pdf: the run count across all pages. -/
def totalItems (pages : List Page) : Nat :=
  (pages.map (fun pg => pg.content.length)).sum

/-- pdf_handler.translate_pdf, the orchestrator.  The input file is
modelled as the result of opening it (outer Except; a failure reaches
the generic exception handler) and then parsing it (inner Except; a
failure is absorbed by extract_text_with_positions into an empty page
list).  The translator and the drawString oracle parameterize the
external behaviours.  Returns the output path (empty string modelling
the failure indicator) together with the ordered list of
(fraction, message) progress emissions. -/
def translate_pdf (file : Except Str (Except Str (List RawPage)))
    (pdf_path : Str) (translator : Str → Except Str Str)
    (drawFails : DrawnOp → Bool) : Str × List (ℚ × Str) :=
  match file with
  | .error e =>
    ([], [((1 : ℚ) / 10, msgExtracting), (-1, msgErrOther e)])
  | .ok pdf =>
    if extract_text_with_positions pdf = [] then
      ([], [((1 : ℚ) / 10, msgExtracting), (-1, msgErrNoText)])
    else
      match mapPages translator ((totalItems (extract_text_with_positions pdf) : ℚ))
          (extract_text_with_positions pdf) initMapState with
      | .error st =>
        ([], ((1 : ℚ) / 10, msgExtracting)
          :: ((2 : ℚ) / 10, msgTranslatingStart)
          :: st.emissions ++ [(-1, msgErrTranslationFailed)])
      | .ok st =>
        match create_pdf_with_layout (extract_text_with_positions pdf)
            st.translations drawFails with
        | none =>
          ([], ((1 : ℚ) / 10, msgExtracting)
            :: ((2 : ℚ) / 10, msgTranslatingStart)
            :: st.emissions
            ++ [((8 : ℚ) / 10, msgCreating), (-1, msgErrCreateFailed)])
        | some _ =>
          (String.toList ("translated_") ++ pdf_path,
            ((1 : ℚ) / 10, msgExtracting)
              :: ((2 : ℚ) / 10, msgTranslatingStart)
              :: st.emissions
              ++ [((8 : ℚ) / 10, msgCreating), ((9 : ℚ) / 10, msgSaving),
                (1, msgComplete)])

/-- A raw page whose only text op is whitespace-only. -/
def samplePageNoText : RawPage :=
  ⟨612, 792, 0, [⟨String.toList ("   "), 10, 20, none, 12⟩]⟩

/-- A raw page with one extractable op. -/
def samplePageWithText : RawPage :=
  ⟨612, 792, 0, [⟨String.toList ("Hello, World!"), 100, 750, none, 12⟩]⟩

/-- A concrete extracted run used by witnesses. -/
def sampleRun : TextRun :=
  ⟨String.toList ("Hello, World!"), 100, 750, 12, helvetica, 0, 612, 792⟩

/-- C4: when a run is actually drawn (non-empty text, non-empty resolved
translation, drawString does not raise), it is drawn at font size
originalFontSize * 1.2 at the stored x, and at the stored y unless
last_y is set and |y - last_y| < 2 mm (mm = 72/25.4 page units), in
which case y is overridden to last_y - adjustedFontSize - 2 mm; the
drawn y becomes the new last_y. -/
theorem C4_font_scale_and_spacing (translations : List (Str × Str))
    (drawFails : DrawnOp → Bool) (ly? : Option ℚ) (drawn : List DrawnOp)
    (run : TextRun) (htext : run.text ≠ [])
    (htr : getD translations run.text ≠ [])
    (hdraw : drawFails (drawnOpOf translations ly? run) = false) :
    ∃ op : DrawnOp,
      renderStep translations drawFails (ly?, drawn) run
          = (some op.y, drawn ++ [op])
      ∧ op.fontSize = run.fontSize * ((12 : ℚ) / 10)
      ∧ op.x = run.x
      ∧ op.text = getD translations run.text
      ∧ op.y = (match ly? with
          | some ly =>
            if |run.y - ly| < 2 * mmUnit then ly - op.fontSize - 2 * mmUnit
            else run.y
          | none => run.y) := by
  refine ⟨drawnOpOf translations ly? run, ?_, rfl, rfl, rfl, ?_⟩
  · unfold renderStep
    rw [if_neg htext, if_neg htr, if_neg (by simp [hdraw])]
    rfl
  · cases ly? with
    | none => rfl
    | some ly => rfl

/-- C4 witness: the drawing theorem applied to a concrete run with no
previously drawn line; it is drawn at 12 * 1.2 size and at its stored
position. -/
theorem C4_font_scale_and_spacing_witness :
    (sampleRun.text ≠ [] ∧ getD [] sampleRun.text ≠ []
      ∧ (fun _ => false : DrawnOp → Bool) (drawnOpOf [] none sampleRun)
        = false)
    ∧ ∃ op : DrawnOp,
        renderStep [] (fun _ => false) (none, []) sampleRun
            = (some op.y, [] ++ [op])
        ∧ op.fontSize = sampleRun.fontSize * ((12 : ℚ) / 10)
        ∧ op.x = sampleRun.x
        ∧ op.text = getD [] sampleRun.text
        ∧ op.y = (match (none : Option ℚ) with
            | some ly =>
              if |sampleRun.y - ly| < 2 * mmUnit then
                ly - op.fontSize - 2 * mmUnit
              else sampleRun.y
            | none => sampleRun.y) :=
  ⟨⟨by decide, by decide, rfl⟩,
    C4_font_scale_and_spacing [] (fun _ => false) none [] sampleRun
      (by decide) (by decide) rfl⟩

/-- Page numbers of extraction output over an arbitrary enumeration
start: exactly index + 1 for each raw page with extractable runs. -/
theorem extract_enumFrom_page_numbers (pgs : List RawPage) : ∀ n : Nat,
    ((List.enumFrom n pgs).filterMap (fun p => buildPage p.1 p.2)).map
        Page.page_number
      = ((List.enumFrom n pgs).filter
          (fun p => decide (p.2.ops.filterMap (visitorRun p.2) ≠ []))).map
          (fun p => p.1 + 1) := by
  induction pgs with
  | nil => intro n; rfl
  | cons pg pgs ih =>
    intro n
    rw [List.enumFrom_cons]
    by_cases h : pg.ops.filterMap (visitorRun pg) = []
    · have hb : buildPage n pg = none := by
        unfold buildPage
        rw [if_pos h]
      rw [List.filterMap_cons, List.filter_cons]
      simp [hb, h, ih (n + 1)]
    · have hb : buildPage n pg = some ⟨pg.width, pg.height, pg.rotation,
          stableSort extractLT (pg.ops.filterMap (visitorRun pg)), n + 1⟩ := by
        unfold buildPage
        rw [if_neg h]
      rw [List.filterMap_cons, List.filter_cons]
      simp [hb, h, ih (n + 1)]

/-- C10: every Page returned by extract_text_with_positions carries
page_number equal to its source page's 1-based position in the original
document: the page-number list is exactly index + 1 for the 0-based
index of each raw page with at least one extractable run, in order.
Because run-less pages are omitted, the numbers can be non-contiguous
and need not start at 1, as the second conjunct shows on a concrete
two-page document whose first page has no extractable text. -/
theorem C10_page_numbers :
    (∀ pgs : List RawPage,
      (extract_text_with_positions (.ok pgs)).map Page.page_number
        = (pgs.enum.filter
            (fun p => decide (p.2.ops.filterMap (visitorRun p.2) ≠ []))).map
            (fun p => p.1 + 1))
    ∧ (extract_text_with_positions
          (.ok [samplePageNoText, samplePageWithText])).map Page.page_number
        = [2] := by
  constructor
  · intro pgs
    exact extract_enumFrom_page_numbers pgs 0
  · decide

/-- One render step preserves the invariant that last_y is the y of the
most recently drawn operation (none when nothing was drawn yet). -/
theorem renderStep_lastY (translations : List (Str × Str))
    (drawFails : DrawnOp → Bool) (st : Option ℚ × List DrawnOp)
    (run : TextRun) (h : st.1 = st.2.getLast?.map DrawnOp.y) :
    (renderStep translations drawFails st run).1
      = (renderStep translations drawFails st run).2.getLast?.map
          DrawnOp.y := by
  unfold renderStep
  by_cases h1 : run.text = []
  · rw [if_pos h1]; exact h
  · rw [if_neg h1]
    by_cases h2 : getD translations run.text = []
    · rw [if_pos h2]; exact h
    · rw [if_neg h2]
      by_cases h3 : drawFails (drawnOpOf translations st.1 run) = true
      · rw [if_pos h3]; exact h
      · rw [if_neg h3]
        show some (placedY st.1 run)
          = (st.2 ++ [drawnOpOf translations st.1 run]).getLast?.map
              DrawnOp.y
        rw [List.getLast?_concat]
        rfl

/-- The invariant of renderStep_lastY holds after any number of loop
iterations from an invariant-satisfying state. -/
theorem foldl_renderStep_lastY (translations : List (Str × Str))
    (drawFails : DrawnOp → Bool) :
    ∀ (runs : List TextRun) (st : Option ℚ × List DrawnOp),
    st.1 = st.2.getLast?.map DrawnOp.y →
    (runs.foldl (renderStep translations drawFails) st).1
      = (runs.foldl (renderStep translations drawFails) st).2.getLast?.map
          DrawnOp.y := by
  intro runs
  induction runs with
  | nil => intro st h; exact h
  | cons r rs ih =>
    intro st h
    exact ih (renderStep translations drawFails st r)
      (renderStep_lastY translations drawFails st r h)

/-- C9: throughout the per-page loop of create_pdf_with_layout, last_y
always equals the y at which the most recently drawn run was actually
placed: after any prefix of the page's run sequence the tracked last_y
is the y of the last drawn operation (conjunct 1); each page's loop
starts from an unset last_y and an empty drawn list (conjunct 2); a run
whose resolved translation is empty leaves the state, hence last_y,
unchanged (conjunct 3); and a run whose draw raises is skipped with the
state, hence last_y, unchanged (conjunct 4). -/
theorem C9_lastY_invariant (translations : List (Str × Str))
    (drawFails : DrawnOp → Bool) :
    (∀ pre : List TextRun,
      (pre.foldl (renderStep translations drawFails) (none, [])).1
        = (pre.foldl (renderStep translations drawFails)
            (none, [])).2.getLast?.map DrawnOp.y)
    ∧ (∀ pg : Page, renderPage translations drawFails pg
        = (stableSort renderLT pg.content).foldl
            (renderStep translations drawFails) (none, []))
    ∧ (∀ (st : Option ℚ × List DrawnOp) (run : TextRun),
        getD translations run.text = [] →
        renderStep translations drawFails st run = st)
    ∧ (∀ (st : Option ℚ × List DrawnOp) (run : TextRun),
        drawFails (drawnOpOf translations st.1 run) = true →
        renderStep translations drawFails st run = st) := by
  refine ⟨?_, fun pg => rfl, ?_, ?_⟩
  · intro pre
    exact foldl_renderStep_lastY translations drawFails pre (none, []) rfl
  · intro st run h
    unfold renderStep
    by_cases h1 : run.text = []
    · rw [if_pos h1]
    · rw [if_neg h1, if_pos h]
  · intro st run h
    unfold renderStep
    by_cases h1 : run.text = []
    · rw [if_pos h1]
    · rw [if_neg h1]
      by_cases h2 : getD translations run.text = []
      · rw [if_pos h2]
      · rw [if_neg h2, if_pos h]

/-- C9 witness: the skip conjuncts and the prefix invariant applied at a
concrete state and run whose translation resolves to the empty
string. -/
theorem C9_lastY_invariant_witness :
    renderStep [(sampleRun.text, [])] (fun _ => false)
        (some 700, [⟨100, 700, 12, sampleRun.text⟩]) sampleRun
      = (some 700, [⟨100, 700, 12, sampleRun.text⟩]) :=
  (C9_lastY_invariant [(sampleRun.text, [])] (fun _ => false)).2.2.1
    (some 700, [⟨100, 700, 12, sampleRun.text⟩]) sampleRun (by decide)

/-- When every op of every raw page strips to whitespace, every page is
omitted and the enumerated extraction yields nothing. -/
theorem extract_empty_of_all_blank : ∀ (pgs : List RawPage) (n : Nat),
    (∀ pg ∈ pgs, ∀ op ∈ pg.ops, pyStrip op.text = []) →
    (List.enumFrom n pgs).filterMap (fun p => buildPage p.1 p.2) = [] := by
  intro pgs
  induction pgs with
  | nil => intro n _; rfl
  | cons pg pgs ih =>
    intro n h
    rw [List.enumFrom_cons, List.filterMap_cons]
    have hcond : pg.ops.filterMap (visitorRun pg) = [] := by
      rw [List.filterMap_eq_nil_iff]
      intro op hop
      unfold visitorRun
      rw [if_pos (h pg (List.mem_cons_self pg pgs) op hop)]
    have hb : buildPage n pg = none := by
      unfold buildPage
      rw [if_pos hcond]
    simp only [hb]
    exact ih (n + 1) (fun q hq => h q (List.mem_cons_of_mem pg hq))

/-- C6: for every PDF with zero extractable text runs (every op of every
page strips to whitespace, or the bytes cannot be parsed at all),
extract_text_with_positions returns the empty page sequence, and
translate_pdf then fails with the no-extractable-text error: its result
is a constant that does not depend on the translator, so the
translation capability is never invoked. -/
theorem C6_no_text_short_circuit (pdf : Except Str (List RawPage))
    (h : ∀ pgs, pdf = .ok pgs → ∀ pg ∈ pgs, ∀ op ∈ pg.ops,
      pyStrip op.text = [])
    (path : Str) (translator : Str → Except Str Str)
    (drawFails : DrawnOp → Bool) :
    extract_text_with_positions pdf = []
    ∧ translate_pdf (.ok pdf) path translator drawFails
        = ([], [((1 : ℚ) / 10, msgExtracting), (-1, msgErrNoText)]) := by
  have hext : extract_text_with_positions pdf = [] := by
    cases pdf with
    | error e => rfl
    | ok pgs => exact extract_empty_of_all_blank pgs 0 (h pgs rfl)
  refine ⟨hext, ?_⟩
  simp only [translate_pdf]
  rw [if_pos hext]

/-- C6 witness: the short-circuit theorem applied to a concrete one-page
PDF whose only text is whitespace. -/
theorem C6_no_text_short_circuit_witness :
    extract_text_with_positions (.ok [samplePageNoText]) = []
    ∧ translate_pdf (.ok (.ok [samplePageNoText]))
        (String.toList ("input.pdf")) (fun t => .ok t) (fun _ => false)
      = ([], [((1 : ℚ) / 10, msgExtracting), (-1, msgErrNoText)]) :=
  C6_no_text_short_circuit (.ok [samplePageNoText])
    (by
      intro pgs hp pg hpg op hop
      injection hp with hp
      subst hp
      rcases List.mem_singleton.mp hpg with rfl
      simp only [samplePageNoText] at hop
      rcases List.mem_singleton.mp hop with rfl
      decide)
    (String.toList ("input.pdf")) (fun t => .ok t) (fun _ => false)

/-- The texts of all runs across pages in processing order. -/
def allTexts (pages : List Page) : List Str :=
  (pages.map (fun pg => pg.content.map TextRun.text)).flatten

/-- Insertion-order deduplication step. -/
def insertUnique (acc : List Str) (t : Str) : List Str :=
  if t ∈ acc then acc else acc ++ [t]

/-- Unique elements of a list in first-occurrence order. -/
def uniqueKeys (ts : List Str) : List Str := ts.foldl insertUnique []

/-- hasKey decides membership among the dictionary keys. -/
theorem hasKey_iff (m : List (Str × Str)) (k : Str) :
    hasKey m k = true ↔ k ∈ m.map Prod.fst := by
  unfold hasKey
  rw [List.any_eq_true]
  constructor
  · rintro ⟨p, hp, he⟩
    have hpk : p.1 = k := by simpa using he
    exact hpk ▸ List.mem_map_of_mem Prod.fst hp
  · intro hk
    rcases List.mem_map.mp hk with ⟨p, hp, he⟩
    exact ⟨p, hp, by simpa using he⟩

/-- With distinct keys, the dictionary lookup returns the stored value
of any member pair. -/
theorem getD_eq_of_mem : ∀ (m : List (Str × Str)) (k v : Str),
    (m.map Prod.fst).Nodup → (k, v) ∈ m → getD m k = v := by
  intro m
  induction m with
  | nil => intro k v _ hm; cases hm
  | cons p m ih =>
    intro k v hnd hm
    rcases List.mem_cons.mp hm with he | hm
    · subst he
      unfold getD
      rw [List.find?_cons_of_pos m (by simp)]
    · have hk : k ∈ m.map Prod.fst := by
        have : (k, v).1 ∈ m.map Prod.fst := List.mem_map_of_mem Prod.fst hm
        simpa using this
      rw [List.map_cons, List.nodup_cons] at hnd
      have hne : ¬(p.1 == k) = true := by
        simp only [beq_iff_eq]
        intro he
        exact hnd.1 (he ▸ hk)
      unfold getD
      rw [List.find?_cons_of_neg m hne]
      exact ih k v hnd.2 hm

/-- insertUnique contains the inserted element. -/
theorem mem_insertUnique_self (acc : List Str) (t : Str) :
    t ∈ insertUnique acc t := by
  unfold insertUnique
  by_cases h : t ∈ acc
  · rw [if_pos h]; exact h
  · rw [if_neg h]; simp

/-- insertUnique preserves membership. -/
theorem mem_insertUnique_of_mem (acc : List Str) (u t : Str) (h : t ∈ acc) :
    t ∈ insertUnique acc u := by
  unfold insertUnique
  by_cases hc : u ∈ acc
  · rw [if_pos hc]; exact h
  · rw [if_neg hc]; exact List.mem_append_left _ h

/-- Folding insertUnique retains every inserted or pre-existing
element. -/
theorem mem_foldl_insertUnique (t : Str) : ∀ (ts acc : List Str),
    t ∈ ts ∨ t ∈ acc → t ∈ ts.foldl insertUnique acc := by
  intro ts
  induction ts with
  | nil =>
    intro acc h
    rcases h with h | h
    · cases h
    · exact h
  | cons u us ih =>
    intro acc h
    rw [List.foldl_cons]
    rcases h with h | h
    · rcases List.mem_cons.mp h with rfl | h
      · exact ih _ (Or.inr (mem_insertUnique_self acc t))
      · exact ih _ (Or.inl h)
    · exact ih _ (Or.inr (mem_insertUnique_of_mem acc u t h))

/-- Invariant of the translation-building loop: the call counter equals
the dictionary size, keys are distinct, and every stored pair is a
successful translator result for its key. -/
def MapInv (translator : Str → Except Str Str) (st : MapState) : Prop :=
  st.calls = st.translations.length
  ∧ (st.translations.map Prod.fst).Nodup
  ∧ ∀ p ∈ st.translations, translator p.1 = .ok p.2

/-- A successful mapRun preserves the invariant and evolves the key
list by insertUnique over the run's text when that text is
non-empty. -/
theorem mapRun_ok_spec (translator : Str → Except Str Str) (total : ℚ)
    (pno : Nat) (st st2 : MapState) (run : TextRun)
    (h : mapRun translator total pno st run = .ok st2)
    (hinv : MapInv translator st) :
    MapInv translator st2
    ∧ st2.translations.map Prod.fst
        = (if run.text = [] then st.translations.map Prod.fst
           else insertUnique (st.translations.map Prod.fst) run.text) := by
  unfold mapRun at h
  by_cases hc : run.text ≠ [] ∧ hasKey st.translations run.text = false
  · rw [if_pos hc] at h
    cases he : translator run.text with
    | error e => rw [he] at h; cases h
    | ok tr =>
      rw [he] at h
      injection h with h
      subst h
      have hnotin : run.text ∉ st.translations.map Prod.fst := by
        intro hmem
        rw [← hasKey_iff] at hmem
        rw [hc.2] at hmem
        cases hmem
      refine ⟨⟨?_, ?_, ?_⟩, ?_⟩
      · show st.calls + 1 = (st.translations ++ [(run.text, tr)]).length
        rw [List.length_append, hinv.1]
        rfl
      · show ((st.translations ++ [(run.text, tr)]).map Prod.fst).Nodup
        rw [List.map_append, List.nodup_append]
        refine ⟨hinv.2.1, by simp, ?_⟩
        intro a ha hb
        rcases List.mem_singleton.mp (by simpa using hb) with rfl
        exact hnotin ha
      · intro p hp
        rcases List.mem_append.mp hp with hp | hp
        · exact hinv.2.2 p hp
        · rcases List.mem_singleton.mp hp with rfl
          exact he
      · show ((st.translations ++ [(run.text, tr)]).map Prod.fst) = _
        rw [if_neg (by simpa using hc.1)]
        unfold insertUnique
        rw [if_neg hnotin, List.map_append]
        rfl
  · rw [if_neg hc] at h
    injection h with h
    subst h
    refine ⟨⟨hinv.1, hinv.2.1, hinv.2.2⟩, ?_⟩
    by_cases ht : run.text = []
    · rw [if_pos ht]
    · rw [if_neg ht]
      have hkey : hasKey st.translations run.text = true := by
        rcases Decidable.not_and_iff_or_not.mp hc with h1 | h2
        · exact absurd ht (by simpa using h1)
        · simpa using h2
      unfold insertUnique
      rw [if_pos (by rw [← hasKey_iff]; exact hkey)]

/-- A successful mapRuns pass preserves the invariant and evolves the
key list by insertUnique over the page's non-empty run texts in
order. -/
theorem mapRuns_ok_spec (translator : Str → Except Str Str) (total : ℚ)
    (pno : Nat) : ∀ (rs : List TextRun) (st st2 : MapState),
    mapRuns translator total pno rs st = .ok st2 →
    MapInv translator st →
    MapInv translator st2
    ∧ st2.translations.map Prod.fst
        = ((rs.map TextRun.text).filter (fun t => decide (t ≠ []))).foldl
            insertUnique (st.translations.map Prod.fst) := by
  intro rs
  induction rs with
  | nil =>
    intro st st2 h hinv
    injection h with h
    subst h
    exact ⟨hinv, rfl⟩
  | cons r rs ih =>
    intro st st2 h hinv
    unfold mapRuns at h
    cases hm : mapRun translator total pno st r with
    | error st1 => rw [hm] at h; cases h
    | ok st1 =>
      rw [hm] at h
      have h1 := mapRun_ok_spec translator total pno st st1 r hm hinv
      have h2 := ih st1 st2 h h1.1
      refine ⟨h2.1, ?_⟩
      rw [h2.2, h1.2]
      by_cases ht : r.text = []
      · simp [ht]
      · simp [ht]

/-- A successful mapPages pass preserves the invariant and evolves the
key list by insertUnique over all non-empty run texts of the document
in processing order. -/
theorem mapPages_ok_spec (translator : Str → Except Str Str) (total : ℚ) :
    ∀ (pages : List Page) (st st2 : MapState),
    mapPages translator total pages st = .ok st2 →
    MapInv translator st →
    MapInv translator st2
    ∧ st2.translations.map Prod.fst
        = ((allTexts pages).filter (fun t => decide (t ≠ []))).foldl
            insertUnique (st.translations.map Prod.fst) := by
  intro pages
  induction pages with
  | nil =>
    intro st st2 h hinv
    injection h with h
    subst h
    exact ⟨hinv, rfl⟩
  | cons pg pgs ih =>
    intro st st2 h hinv
    unfold mapPages at h
    cases hm : mapRuns translator total pg.page_number pg.content st with
    | error st1 => rw [hm] at h; cases h
    | ok st1 =>
      rw [hm] at h
      have h1 := mapRuns_ok_spec translator total pg.page_number pg.content
        st st1 hm hinv
      have h2 := ih st1 st2 h h1.1
      refine ⟨h2.1, ?_⟩
      rw [h2.2, h1.2]
      unfold allTexts
      rw [List.map_cons, List.flatten_cons, List.filter_append,
        List.foldl_append]

/-- C3: on a successful mapping pass the translator is called exactly
once per unique literal non-empty run text: the call count equals the
number of distinct texts, the dictionary keys are exactly those texts
verbatim in first-occurrence order (no normalization), and during
rendering every occurrence of a text resolves through the dictionary to
the single stored translator result for it. -/
theorem C3_translate_once_per_unique (pages : List Page) (total : ℚ)
    (translator : Str → Except Str Str) (st : MapState)
    (h : mapPages translator total pages initMapState = .ok st) :
    st.calls
      = (uniqueKeys ((allTexts pages).filter (fun t => decide (t ≠ [])))).length
    ∧ st.translations.map Prod.fst
      = uniqueKeys ((allTexts pages).filter (fun t => decide (t ≠ [])))
    ∧ ∀ pg ∈ pages, ∀ run ∈ pg.content, run.text ≠ [] →
        ∃ tr, translator run.text = .ok tr
          ∧ getD st.translations run.text = tr := by
  have hinit : MapInv translator initMapState :=
    ⟨rfl, List.nodup_nil, by intro p hp; cases hp⟩
  have hs := mapPages_ok_spec translator total pages initMapState st h hinit
  have hkeys : st.translations.map Prod.fst
      = uniqueKeys ((allTexts pages).filter (fun t => decide (t ≠ []))) := by
    rw [hs.2]
    rfl
  refine ⟨?_, hkeys, ?_⟩
  · rw [hs.1.1,
      show st.translations.length = (st.translations.map Prod.fst).length from
        (List.length_map _ _).symm,
      hkeys]
  · intro pg hpg run hrun htext
    have htmem : run.text ∈ (allTexts pages).filter (fun t => decide (t ≠ [])) := by
      rw [List.mem_filter]
      refine ⟨?_, by simpa using htext⟩
      unfold allTexts
      rw [List.mem_flatten]
      exact ⟨pg.content.map TextRun.text, List.mem_map_of_mem _ hpg,
        List.mem_map_of_mem _ hrun⟩
    have hkmem : run.text ∈ st.translations.map Prod.fst := by
      rw [hkeys]
      exact mem_foldl_insertUnique run.text _ [] (Or.inl htmem)
    rcases List.mem_map.mp hkmem with ⟨p, hp, he⟩
    refine ⟨p.2, ?_, ?_⟩
    · rw [← he]
      exact hs.1.2.2 p hp
    · refine getD_eq_of_mem st.translations run.text p.2 hs.1.2.1 ?_
      rw [← he]
      exact hp

/-- A page with three runs, two sharing the same literal text. -/
def samplePageDupRuns : Page :=
  ⟨612, 792, 0,
    [⟨String.toList ("Hello"), 10, 700, 12, helvetica, 0, 612, 792⟩,
     ⟨String.toList ("World"), 10, 650, 12, helvetica, 0, 612, 792⟩,
     ⟨String.toList ("Hello"), 10, 600, 12, helvetica, 0, 612, 792⟩], 1⟩

/-- The state mapPages reaches on the duplicate-text sample page with
the identity translator. -/
def sampleMapResult : MapState :=
  match mapPages (fun t => Except.ok t) 3 [samplePageDupRuns] initMapState with
  | .ok st => st
  | .error st => st

/-- C3 witness: on the concrete page with runs Hello, World, Hello the
mapping pass succeeds and the translator was called exactly twice, the
number of unique texts. -/
theorem C3_translate_once_per_unique_witness :
    mapPages (fun t => Except.ok t) 3 [samplePageDupRuns] initMapState
        = .ok sampleMapResult
    ∧ sampleMapResult.calls
        = (uniqueKeys ((allTexts [samplePageDupRuns]).filter
            (fun t => decide (t ≠ [])))).length :=
  ⟨rfl,
    (C3_translate_once_per_unique [samplePageDupRuns] 3
      (fun t => Except.ok t) sampleMapResult rfl).1⟩


/-- The progress fraction reported after the p-th processed run
(0-based p, reported as run p + 1 out of total). -/
def fracEmission (total : ℚ) (p : Nat) : ℚ :=
  (2 : ℚ) / 10 + (6 : ℚ) / 10 * ((p : ℚ) + 1) / total

/-- The full progress emission after the p-th processed run while page
pno is being translated. -/
def mapEmission (total : ℚ) (pno : Nat) (p : Nat) : ℚ × Str :=
  (fracEmission total p, msgTranslatingPage pno)

/-- A successful mapRun advances processed by one and appends exactly
one emission, carrying the fraction 0.2 + 0.6 * processed / total. -/
theorem mapRun_emission (translator : Str → Except Str Str) (total : ℚ)
    (pno : Nat) (st st2 : MapState) (run : TextRun)
    (h : mapRun translator total pno st run = .ok st2) :
    st2.processed = st.processed + 1
    ∧ st2.emissions = st.emissions ++ [mapEmission total pno st.processed] := by
  unfold mapRun at h
  by_cases hc : run.text ≠ [] ∧ hasKey st.translations run.text = false
  · rw [if_pos hc] at h
    cases he : translator run.text with
    | error e => rw [he] at h; cases h
    | ok tr =>
      rw [he] at h
      injection h with h
      subst h
      exact ⟨rfl, rfl⟩
  · rw [if_neg hc] at h
    injection h with h
    subst h
    exact ⟨rfl, rfl⟩

/-- Peeling the first index off a range mapped through an offset
function. -/
theorem range_map_succ_em {α : Type} (em : Nat → α) (p n : Nat) :
    (List.range (n + 1)).map (fun k => em (p + k))
      = em p :: (List.range n).map (fun k => em (p + 1 + k)) := by
  rw [List.range_succ_eq_map, List.map_cons, List.map_map]
  congr 1
  apply List.map_congr_left
  intro k _
  show em (p + (k + 1)) = em (p + 1 + k)
  have h : p + (k + 1) = p + 1 + k := by omega
  rw [h]

/-- Splitting a range mapped through an offset function. -/
theorem range_map_add_em {α : Type} (em : Nat → α) (p a : Nat) : ∀ b : Nat,
    (List.range (a + b)).map (fun k => em (p + k))
      = (List.range a).map (fun k => em (p + k))
        ++ (List.range b).map (fun k => em (p + a + k)) := by
  intro b
  induction b with
  | zero => simp
  | succ n ih =>
    have h : p + (a + n) = p + a + n := by omega
    rw [Nat.add_succ]
    simp only [List.range_succ, List.map_append, List.map_cons, List.map_nil]
    rw [ih, List.append_assoc]
    congr 2
    show [em (p + (a + n))] = [em (p + a + n)]
    rw [h]

/-- A successful mapRuns pass over one page advances processed by the
run count and appends one emission per run with consecutively numbered
fractions. -/
theorem mapRuns_emissions (translator : Str → Except Str Str) (total : ℚ)
    (pno : Nat) : ∀ (rs : List TextRun) (st st2 : MapState),
    mapRuns translator total pno rs st = .ok st2 →
    st2.processed = st.processed + rs.length
    ∧ st2.emissions = st.emissions
        ++ (List.range rs.length).map
            (fun k => mapEmission total pno (st.processed + k)) := by
  intro rs
  induction rs with
  | nil =>
    intro st st2 h
    injection h with h
    subst h
    simp
  | cons r rs ih =>
    intro st st2 h
    unfold mapRuns at h
    cases hm : mapRun translator total pno st r with
    | error st1 => rw [hm] at h; cases h
    | ok st1 =>
      rw [hm] at h
      have e1 := mapRun_emission translator total pno st st1 r hm
      have e2 := ih st1 st2 h
      constructor
      · rw [e2.1, e1.1, List.length_cons]
        omega
      · rw [e2.2, e1.2, e1.1, List.length_cons,
          range_map_succ_em (mapEmission total pno) st.processed rs.length,
          List.append_assoc, List.singleton_append]

/-- A successful mapPages pass advances processed by the total run
count and emits one consecutively numbered fraction per run across all
pages. -/
theorem mapPages_emissions (translator : Str → Except Str Str) (total : ℚ) :
    ∀ (pages : List Page) (st st2 : MapState),
    mapPages translator total pages st = .ok st2 →
    st2.processed = st.processed + totalItems pages
    ∧ st2.emissions.map Prod.fst = st.emissions.map Prod.fst
        ++ (List.range (totalItems pages)).map
            (fun k => fracEmission total (st.processed + k)) := by
  intro pages
  induction pages with
  | nil =>
    intro st st2 h
    injection h with h
    subst h
    simp [totalItems]
  | cons pg pgs ih =>
    intro st st2 h
    unfold mapPages at h
    cases hm : mapRuns translator total pg.page_number pg.content st with
    | error st1 => rw [hm] at h; cases h
    | ok st1 =>
      rw [hm] at h
      have e1 := mapRuns_emissions translator total pg.page_number
        pg.content st st1 hm
      have e2 := ih st1 st2 h
      have htot : totalItems (pg :: pgs)
          = pg.content.length + totalItems pgs := by
        unfold totalItems
        rw [List.map_cons, List.sum_cons]
      refine ⟨?_, ?_⟩
      · rw [e2.1, e1.1, htot]
        omega
      · rw [e2.2, e1.2, e1.1, htot,
          range_map_add_em (fracEmission total) st.processed
            pg.content.length (totalItems pgs),
          List.map_append, List.map_map, List.append_assoc]
        rfl

/-- Inserting an element grows the length by one. -/
theorem insertSorted_length {α : Type} (lt : α → α → Bool) (x : α) :
    ∀ l : List α, (insertSorted lt x l).length = l.length + 1 := by
  intro l
  induction l with
  | nil => rfl
  | cons y ys ih =>
    unfold insertSorted
    by_cases h : lt y x = true
    · rw [if_pos h, List.length_cons, ih, List.length_cons]
    · rw [if_neg h]
      rfl

/-- The stable sort preserves length. -/
theorem stableSort_length {α : Type} (lt : α → α → Bool) (l : List α) :
    (stableSort lt l).length = l.length := by
  unfold stableSort
  induction l with
  | nil => rfl
  | cons x xs ih =>
    rw [List.foldr_cons, insertSorted_length, ih, List.length_cons]

/-- Every page the extractor returns has at least one run. -/
theorem extract_content_ne_nil : ∀ (pgs : List RawPage) (n : Nat)
    (pg : Page),
    pg ∈ (List.enumFrom n pgs).filterMap (fun p => buildPage p.1 p.2) →
    pg.content ≠ [] := by
  intro pgs
  induction pgs with
  | nil => intro n pg h; cases h
  | cons raw pgs ih =>
    intro n pg h
    rw [List.enumFrom_cons, List.filterMap_cons] at h
    by_cases hc : raw.ops.filterMap (visitorRun raw) = []
    · have hb : buildPage n raw = none := by
        unfold buildPage
        rw [if_pos hc]
      rw [hb] at h
      exact ih (n + 1) pg h
    · have hb : buildPage n raw = some ⟨raw.width, raw.height, raw.rotation,
          stableSort extractLT (raw.ops.filterMap (visitorRun raw)), n + 1⟩ := by
        unfold buildPage
        rw [if_neg hc]
      rw [hb] at h
      rcases List.mem_cons.mp h with rfl | h
      · show stableSort extractLT (raw.ops.filterMap (visitorRun raw)) ≠ []
        intro hnil
        have := stableSort_length extractLT
          (raw.ops.filterMap (visitorRun raw))
        rw [hnil] at this
        exact hc (List.eq_nil_of_length_eq_zero this.symm)
      · exact ih (n + 1) pg h

/-- The total run count of a non-empty page list with non-empty pages
is positive. -/
theorem totalItems_pos (pages : List Page) (hne : pages ≠ [])
    (hc : ∀ pg ∈ pages, pg.content ≠ []) : 0 < totalItems pages := by
  cases pages with
  | nil => exact absurd rfl hne
  | cons pg pgs =>
    unfold totalItems
    rw [List.map_cons, List.sum_cons]
    have h1 : 0 < pg.content.length :=
      List.length_pos.mpr (hc pg (List.mem_cons_self pg pgs))
    omega

/-- With at least one page, the renderer always produces output (the
document-level failure of create_pdf_with_layout only fires on an empty
page list). -/
theorem create_pdf_some (pages : List Page)
    (translations : List (Str × Str)) (drawFails : DrawnOp → Bool)
    (h : pages ≠ []) :
    create_pdf_with_layout pages translations drawFails
      = some (pages.map (fun pg => (renderPage translations drawFails pg).2)) := by
  cases pages with
  | nil => exact absurd rfl h
  | cons a l => rfl

/-- The success-path emissions of translate_pdf: 0.1, 0.2, the mapping
emissions, then 0.8, 0.9 and 1.0, with the derived output path. -/
theorem translate_pdf_success_eq (pdf : Except Str (List RawPage))
    (path : Str) (translator : Str → Except Str Str)
    (drawFails : DrawnOp → Bool) (st : MapState)
    (hne : extract_text_with_positions pdf ≠ [])
    (hmap : mapPages translator
        ((totalItems (extract_text_with_positions pdf) : ℚ))
        (extract_text_with_positions pdf) initMapState = .ok st) :
    translate_pdf (.ok pdf) path translator drawFails
      = (String.toList ("translated_") ++ path,
        ((1 : ℚ) / 10, msgExtracting)
          :: ((2 : ℚ) / 10, msgTranslatingStart)
          :: st.emissions
          ++ [((8 : ℚ) / 10, msgCreating), ((9 : ℚ) / 10, msgSaving),
            (1, msgComplete)]) := by
  simp only [translate_pdf]
  rw [if_neg hne, hmap]
  dsimp only
  rw [create_pdf_some (extract_text_with_positions pdf) st.translations
    drawFails hne]

/-- Mapping fractions strictly increase run over run. -/
theorem fracEmission_lt (total : ℚ) (htot : 0 < total) (p : Nat) :
    fracEmission total p < fracEmission total (p + 1) := by
  unfold fracEmission
  push_cast
  gcongr
  norm_num

/-- Every mapping fraction lies strictly above 0.2. -/
theorem fracEmission_gt (total : ℚ) (htot : 0 < total) (p : Nat) :
    (2 : ℚ) / 10 < fracEmission total p := by
  unfold fracEmission
  have h1 : 0 < (6 : ℚ) / 10 * ((p : ℚ) + 1) / total := by positivity
  linarith

/-- Every mapping fraction is non-negative. -/
theorem fracEmission_nonneg (total : ℚ) (htot : 0 < total) (p : Nat) :
    0 ≤ fracEmission total p := by
  have h1 := fracEmission_gt total htot p
  linarith

/-- The fraction of the last of N runs is exactly 0.8. -/
theorem fracEmission_last (N : Nat) (hN : 0 < N) :
    fracEmission (N : ℚ) (N - 1) = (8 : ℚ) / 10 := by
  unfold fracEmission
  have hN1 : (1 : Nat) ≤ N := hN
  have h1 : ((N - 1 : Nat) : ℚ) + 1 = (N : ℚ) := by
    rw [Nat.cast_sub hN1]
    ring
  have h2 : (N : ℚ) ≠ 0 := by
    exact_mod_cast Nat.pos_iff_ne_zero.mp hN
  rw [h1, mul_div_assoc, div_self h2, mul_one]
  norm_num

/-- The mapping-stage fraction list strictly increases. -/
theorem chain_fracEmission (total : ℚ) (htot : 0 < total) (n : Nat) :
    List.Chain' (fun a b => a < b)
      ((List.range n).map (fracEmission total)) := by
  rw [List.chain'_map]
  cases n with
  | zero => simp
  | succ m =>
    rw [List.chain'_range_succ]
    intro k _
    exact fracEmission_lt total htot k

/-- The last fraction of the mapping stage over N runs is 0.8. -/
theorem fracEmission_getLast (N : Nat) (hN : 0 < N) :
    ((List.range N).map (fracEmission (N : ℚ))).getLast?
      = some ((8 : ℚ) / 10) := by
  obtain ⟨M, rfl⟩ : ∃ M, N = M + 1 := ⟨N - 1, by omega⟩
  rw [List.range_succ, List.map_append, List.map_cons, List.map_nil,
    List.getLast?_concat]
  have h := fracEmission_last (M + 1) (by omega)
  rw [Nat.add_sub_cancel] at h
  rw [h]

/-- The first fraction of a non-empty mapping stage. -/
theorem fracEmission_head (N : Nat) (hN : 0 < N) :
    ((List.range N).map (fracEmission (N : ℚ))).head?
      = some (fracEmission (N : ℚ) 0) := by
  obtain ⟨M, rfl⟩ : ∃ M, N = M + 1 := ⟨N - 1, by omega⟩
  rw [List.range_succ_eq_map, List.map_cons]
  rfl

/-- C7: for a document whose extraction is non-empty and whose mapping
pass succeeds with N total runs, the mapping-stage progress fractions
are exactly 0.2 + 0.6*(k+1)/N for k = 0..N-1 — one emission per run,
cache hits included; prefixed with the stage-start fraction 0.2 they
strictly increase; the last mapping fraction is exactly 0.8; and the
full fraction sequence emitted by the successful translate_pdf call is
monotonically non-decreasing. -/
theorem C7_progress_fractions (pdf : Except Str (List RawPage)) (path : Str)
    (translator : Str → Except Str Str) (drawFails : DrawnOp → Bool)
    (st : MapState)
    (hne : extract_text_with_positions pdf ≠ [])
    (hmap : mapPages translator
        ((totalItems (extract_text_with_positions pdf) : ℚ))
        (extract_text_with_positions pdf) initMapState = .ok st) :
    st.emissions.map Prod.fst
        = (List.range (totalItems (extract_text_with_positions pdf))).map
            (fracEmission ((totalItems (extract_text_with_positions pdf) : ℚ)))
    ∧ List.Chain' (fun a b => a < b)
        (((2 : ℚ) / 10) :: st.emissions.map Prod.fst)
    ∧ (st.emissions.map Prod.fst).getLast? = some ((8 : ℚ) / 10)
    ∧ List.Chain' (fun a b => a ≤ b)
        ((translate_pdf (.ok pdf) path translator drawFails).2.map
          Prod.fst) := by
  have hcontent : ∀ pg ∈ extract_text_with_positions pdf, pg.content ≠ [] := by
    cases pdf with
    | error e => intro pg hpg; cases hpg
    | ok pgs => exact fun pg hpg => extract_content_ne_nil pgs 0 pg hpg
  have hN : 0 < totalItems (extract_text_with_positions pdf) :=
    totalItems_pos _ hne hcontent
  have htot : (0 : ℚ) < (totalItems (extract_text_with_positions pdf) : ℚ) := by
    exact_mod_cast hN
  have hem := (mapPages_emissions translator _
    (extract_text_with_positions pdf) initMapState st hmap).2
  have hem2 : st.emissions.map Prod.fst
      = (List.range (totalItems (extract_text_with_positions pdf))).map
          (fracEmission ((totalItems (extract_text_with_positions pdf) : ℚ))) := by
    rw [hem]
    show ([] : List ℚ) ++ _ = _
    rw [List.nil_append]
    apply List.map_congr_left
    intro k _
    show fracEmission _ (0 + k) = fracEmission _ k
    rw [Nat.zero_add]
  have hchain : List.Chain' (fun a b => a < b)
      (((2 : ℚ) / 10) :: st.emissions.map Prod.fst) := by
    rw [hem2, List.chain'_cons']
    refine ⟨?_, chain_fracEmission _ htot _⟩
    intro y hy
    rw [fracEmission_head _ hN] at hy
    have hy2 : fracEmission
        ((totalItems (extract_text_with_positions pdf) : ℚ)) 0 = y := by
      simpa using hy
    rw [← hy2]
    exact fracEmission_gt _ htot 0
  have hlast : (st.emissions.map Prod.fst).getLast? = some ((8 : ℚ) / 10) := by
    rw [hem2]
    exact fracEmission_getLast _ hN
  refine ⟨hem2, hchain, hlast, ?_⟩
  rw [translate_pdf_success_eq pdf path translator drawFails st hne hmap]
  simp only [List.map_cons, List.map_append, List.map_nil]
  refine List.chain'_cons'.mpr ⟨?_, ?_⟩
  · intro y hy
    have hy2 : (2 : ℚ) / 10 = y := by simpa using hy
    rw [← hy2]
    norm_num
  · refine List.chain'_cons'.mpr ⟨?_, ?_⟩
    · intro y hy
      rw [List.append_eq, List.head?_append, hem2, fracEmission_head _ hN] at hy
      have hy2 : fracEmission
          ((totalItems (extract_text_with_positions pdf) : ℚ)) 0 = y := by
        simpa using hy
      rw [← hy2]
      have h3 := fracEmission_gt _ htot 0
      linarith
    · refine List.chain'_append.mpr ⟨?_, ?_, ?_⟩
      · rw [hem2]
        exact (chain_fracEmission _ htot _).imp (fun a b h => le_of_lt h)
      · norm_num [List.chain'_cons]
      · intro x hx y hy
        rw [hlast] at hx
        have hx2 : (8 : ℚ) / 10 = x := by simpa using hx
        have hy2 : (8 : ℚ) / 10 = y := by simpa using hy
        rw [← hx2, ← hy2]

/-- A one-page raw document with two extractable runs. -/
def sampleRawDoc : List RawPage :=
  [⟨612, 792, 0,
    [⟨String.toList ("Hello"), 100, 750, none, 12⟩,
     ⟨String.toList ("World"), 100, 700, none, 12⟩]⟩]

/-- The mapping state reached on sampleRawDoc with the identity
translator. -/
def sampleC7State : MapState :=
  match mapPages (fun t => Except.ok t)
      ((totalItems (extract_text_with_positions (.ok sampleRawDoc)) : ℚ))
      (extract_text_with_positions (.ok sampleRawDoc)) initMapState with
  | .ok st => st
  | .error st => st

/-- C7 witness: on the concrete two-run document the mapping pass
succeeds and the last mapping fraction is exactly 0.8. -/
theorem C7_progress_fractions_witness :
    (extract_text_with_positions (.ok sampleRawDoc) ≠ []
      ∧ mapPages (fun t => Except.ok t)
          ((totalItems (extract_text_with_positions (.ok sampleRawDoc)) : ℚ))
          (extract_text_with_positions (.ok sampleRawDoc)) initMapState
        = .ok sampleC7State)
    ∧ (sampleC7State.emissions.map Prod.fst).getLast?
        = some ((8 : ℚ) / 10) :=
  ⟨⟨by decide, rfl⟩,
    (C7_progress_fractions (.ok sampleRawDoc) (String.toList ("a.pdf"))
      (fun t => Except.ok t) (fun _ => false) sampleC7State (by decide)
      rfl).2.2.1⟩

/-- A mapRun failure returns the state unchanged (the exception
propagates before the run is counted). -/
theorem mapRun_error_eq (translator : Str → Except Str Str) (total : ℚ)
    (pno : Nat) (st st2 : MapState) (run : TextRun)
    (h : mapRun translator total pno st run = .error st2) : st2 = st := by
  unfold mapRun at h
  by_cases hc : run.text ≠ [] ∧ hasKey st.translations run.text = false
  · rw [if_pos hc] at h
    cases he : translator run.text with
    | error e =>
      rw [he] at h
      injection h with h
      exact h.symm
    | ok tr => rw [he] at h; cases h
  · rw [if_neg hc] at h
    cases h

/-- Emission non-negativity is preserved by the per-page translation
loop, in both outcomes. -/
theorem mapRuns_nonneg (translator : Str → Except Str Str) (total : ℚ)
    (pno : Nat) (htot : 0 < total) :
    ∀ (rs : List TextRun) (st : MapState),
    (∀ e ∈ st.emissions, 0 ≤ e.1) →
    ∀ st2, (mapRuns translator total pno rs st = .ok st2
        ∨ mapRuns translator total pno rs st = .error st2) →
    ∀ e ∈ st2.emissions, 0 ≤ e.1 := by
  intro rs
  induction rs with
  | nil =>
    intro st h st2 hcase
    rcases hcase with hc | hc
    · injection hc with hc
      subst hc
      exact h
    · cases hc
  | cons r rs ih =>
    intro st h st2 hcase
    have hstep : ∀ st1, mapRun translator total pno st r = .ok st1 →
        ∀ e ∈ st1.emissions, 0 ≤ e.1 := by
      intro st1 hm e he
      rw [(mapRun_emission translator total pno st st1 r hm).2] at he
      rcases List.mem_append.mp he with he | he
      · exact h e he
      · rcases List.mem_singleton.mp he with rfl
        exact fracEmission_nonneg total htot st.processed
    rcases hcase with hc | hc
    · unfold mapRuns at hc
      cases hm : mapRun translator total pno st r with
      | error st1 => rw [hm] at hc; cases hc
      | ok st1 =>
        rw [hm] at hc
        exact ih st1 (hstep st1 hm) st2 (Or.inl hc)
    · unfold mapRuns at hc
      cases hm : mapRun translator total pno st r with
      | error st1 =>
        rw [hm] at hc
        injection hc with hc
        subst hc
        have he := mapRun_error_eq translator total pno st st1 r hm
        subst he
        exact h
      | ok st1 =>
        rw [hm] at hc
        exact ih st1 (hstep st1 hm) st2 (Or.inr hc)

/-- Emission non-negativity is preserved across all pages, in both
outcomes. -/
theorem mapPages_nonneg (translator : Str → Except Str Str) (total : ℚ)
    (htot : 0 < total) :
    ∀ (pages : List Page) (st : MapState),
    (∀ e ∈ st.emissions, 0 ≤ e.1) →
    ∀ st2, (mapPages translator total pages st = .ok st2
        ∨ mapPages translator total pages st = .error st2) →
    ∀ e ∈ st2.emissions, 0 ≤ e.1 := by
  intro pages
  induction pages with
  | nil =>
    intro st h st2 hcase
    rcases hcase with hc | hc
    · injection hc with hc
      subst hc
      exact h
    · cases hc
  | cons pg pgs ih =>
    intro st h st2 hcase
    rcases hcase with hc | hc
    · unfold mapPages at hc
      cases hm : mapRuns translator total pg.page_number pg.content st with
      | error st1 => rw [hm] at hc; cases hc
      | ok st1 =>
        rw [hm] at hc
        exact ih st1
          (mapRuns_nonneg translator total pg.page_number htot pg.content
            st h st1 (Or.inl hm)) st2 (Or.inl hc)
    · unfold mapPages at hc
      cases hm : mapRuns translator total pg.page_number pg.content st with
      | error st1 =>
        rw [hm] at hc
        injection hc with hc
        subst hc
        exact mapRuns_nonneg translator total pg.page_number htot pg.content
          st h st1 (Or.inr hm)
      | ok st1 =>
        rw [hm] at hc
        exact ih st1
          (mapRuns_nonneg translator total pg.page_number htot pg.content
            st h st1 (Or.inl hm)) st2 (Or.inr hc)

/-- The translator-failure emissions of translate_pdf. -/
theorem translate_pdf_maperr_eq (pdf : Except Str (List RawPage))
    (path : Str) (translator : Str → Except Str Str)
    (drawFails : DrawnOp → Bool) (st : MapState)
    (hne : extract_text_with_positions pdf ≠ [])
    (hmap : mapPages translator
        ((totalItems (extract_text_with_positions pdf) : ℚ))
        (extract_text_with_positions pdf) initMapState = .error st) :
    translate_pdf (.ok pdf) path translator drawFails
      = ([], ((1 : ℚ) / 10, msgExtracting)
          :: ((2 : ℚ) / 10, msgTranslatingStart)
          :: st.emissions ++ [(-1, msgErrTranslationFailed)]) := by
  simp only [translate_pdf]
  rw [if_neg hne, hmap]

/-- A list of non-negative fractions survives no negative filter. -/
theorem filter_neg_fractions (l : List (ℚ × Str))
    (h : ∀ e ∈ l, 0 ≤ e.1) :
    l.filter (fun e => decide (e.1 < 0)) = [] := by
  rw [List.filter_eq_nil_iff]
  intro e he
  simp only [decide_eq_true_eq]
  exact not_lt.mpr (h e he)

/-- Filtering the negatives out of non-negative emissions followed by
the single -1 sentinel keeps exactly the sentinel. -/
theorem filter_neg_last (l : List (ℚ × Str)) (msg : Str)
    (h : ∀ e ∈ l, 0 ≤ e.1) :
    (l ++ [((-1 : ℚ), msg)]).filter (fun e => decide (e.1 < 0))
      = [((-1 : ℚ), msg)] := by
  rw [List.filter_append, filter_neg_fractions l h, List.nil_append,
    List.filter_cons, if_pos (by norm_num), List.filter_nil]

/-- Every page of every extraction result has at least one run. -/
theorem extract_content_ne (pdf : Except Str (List RawPage)) :
    ∀ pg ∈ extract_text_with_positions pdf, pg.content ≠ [] := by
  cases pdf with
  | error e => intro pg hpg; cases hpg
  | ok pgs => exact fun pg hpg => extract_content_ne_nil pgs 0 pg hpg

/-- C5: translate_pdf never throws past its boundary.  For every input
file, path, translator behaviour (including raising on any call) and
drawing behaviour, it either returns a non-empty output path having
emitted only non-negative progress fractions, or returns the empty
string (the failure indicator) having emitted exactly one negative
sentinel fraction, -1, carrying a non-empty human-readable message as
the final progress callback. -/
theorem C5_no_throw (file : Except Str (Except Str (List RawPage)))
    (path : Str) (translator : Str → Except Str Str)
    (drawFails : DrawnOp → Bool) :
    ((translate_pdf file path translator drawFails).1 ≠ []
      ∧ ∀ e ∈ (translate_pdf file path translator drawFails).2, 0 ≤ e.1)
    ∨ ((translate_pdf file path translator drawFails).1 = []
      ∧ ∃ msg, msg ≠ []
        ∧ (translate_pdf file path translator drawFails).2.filter
            (fun e => decide (e.1 < 0)) = [((-1 : ℚ), msg)]
        ∧ (translate_pdf file path translator drawFails).2.getLast?
            = some ((-1 : ℚ), msg)) := by
  cases file with
  | error e =>
    right
    refine ⟨rfl, msgErrOther e, ?_, ?_, ?_⟩
    · exact List.append_ne_nil_of_left_ne_nil (by decide) e
    · show ([((1 : ℚ) / 10, msgExtracting)]
          ++ [((-1 : ℚ), msgErrOther e)]).filter
          (fun e => decide (e.1 < 0)) = [((-1 : ℚ), msgErrOther e)]
      apply filter_neg_last
      intro x hx
      rcases List.mem_singleton.mp hx with rfl
      norm_num
    · rfl
  | ok pdf =>
    by_cases hext : extract_text_with_positions pdf = []
    · right
      have heq : translate_pdf (.ok pdf) path translator drawFails
          = ([], [((1 : ℚ) / 10, msgExtracting),
              ((-1 : ℚ), msgErrNoText)]) := by
        simp only [translate_pdf]
        rw [if_pos hext]
      rw [heq]
      refine ⟨rfl, msgErrNoText, by decide, ?_, ?_⟩
      · show ([((1 : ℚ) / 10, msgExtracting)]
            ++ [((-1 : ℚ), msgErrNoText)]).filter
            (fun e => decide (e.1 < 0)) = [((-1 : ℚ), msgErrNoText)]
        apply filter_neg_last
        intro x hx
        rcases List.mem_singleton.mp hx with rfl
        norm_num
      · rfl
    · have hcontent := extract_content_ne pdf
      have hN := totalItems_pos _ hext hcontent
      have htot : (0 : ℚ)
          < ((totalItems (extract_text_with_positions pdf) : ℚ)) := by
        exact_mod_cast hN
      cases hm : mapPages translator
          ((totalItems (extract_text_with_positions pdf) : ℚ))
          (extract_text_with_positions pdf) initMapState with
      | error st =>
        right
        have hnn : ∀ e ∈ st.emissions, 0 ≤ e.1 :=
          mapPages_nonneg translator _ htot
            (extract_text_with_positions pdf) initMapState
            (by intro e he; cases he) st (Or.inr hm)
        rw [translate_pdf_maperr_eq pdf path translator drawFails st hext hm]
        refine ⟨rfl, msgErrTranslationFailed, by decide, ?_, ?_⟩
        · show ((((1 : ℚ) / 10, msgExtracting)
              :: ((2 : ℚ) / 10, msgTranslatingStart) :: st.emissions)
              ++ [((-1 : ℚ), msgErrTranslationFailed)]).filter
              (fun e => decide (e.1 < 0))
            = [((-1 : ℚ), msgErrTranslationFailed)]
          apply filter_neg_last
          intro x hx
          rcases List.mem_cons.mp hx with rfl | hx
          · norm_num
          rcases List.mem_cons.mp hx with rfl | hx
          · norm_num
          exact hnn x hx
        · show ((((1 : ℚ) / 10, msgExtracting)
              :: ((2 : ℚ) / 10, msgTranslatingStart) :: st.emissions)
              ++ [((-1 : ℚ), msgErrTranslationFailed)]).getLast?
            = some ((-1 : ℚ), msgErrTranslationFailed)
          exact List.getLast?_concat _
      | ok st =>
        left
        have hnn : ∀ e ∈ st.emissions, 0 ≤ e.1 :=
          mapPages_nonneg translator _ htot
            (extract_text_with_positions pdf) initMapState
            (by intro e he; cases he) st (Or.inl hm)
        rw [translate_pdf_success_eq pdf path translator drawFails st hext hm]
        refine ⟨?_, ?_⟩
        · exact List.append_ne_nil_of_left_ne_nil (by decide) path
        · intro x hx
          rcases List.mem_cons.mp hx with rfl | hx
          · norm_num
          rcases List.mem_cons.mp hx with rfl | hx
          · norm_num
          rcases List.mem_append.mp hx with hx | hx
          · exact hnn x hx
          rcases List.mem_cons.mp hx with rfl | hx
          · norm_num
          rcases List.mem_cons.mp hx with rfl | hx
          · norm_num
          rcases List.mem_singleton.mp hx with rfl
          norm_num
